import Mathlib

/-!
Verification of the CTF core: the CCSDS secondary-header codec
(`plugins/ccsds_plugin/cfe/ccsds_secondary_header.py`) and the cFS polling
time manager (`plugins/cfs/cfs_time_manager.py`).

Machine bytes are modelled as `Nat` values below 256; exact rational
arithmetic (`ℚ`) models the poll-period accounting of the time manager.
-/

/-! ## CCSDS secondary header codec

The Python classes are `ctypes.BigEndianStructure` declarations with
`_pack_ = 1`.  Serialization of such a structure (`bytes(h)`) is the
concatenation, in `_fields_` declaration order, of each field's value in
big-endian byte order with no padding; `from_buffer_copy` reads the fields
back from a buffer of at least the structure's size.  `beBytes` and `beVal`
embed that fixed-width big-endian encoding. -/

/-- Big-endian encoding of a value into `w` bytes (most-significant first),
as a `ctypes.BigEndianStructure` field of width `w` serializes. -/
def beBytes : Nat → Nat → List Nat
  | 0, _ => []
  | w + 1, v => beBytes w (v / 256) ++ [v % 256]

/-- Big-endian value of a byte list (most-significant byte first), as
`from_buffer_copy` reconstructs a field. -/
def beVal (bs : List Nat) : Nat := bs.foldl (fun a b => a * 256 + b) 0

/-- `CcsdsSecondaryCmdHeader`: `_fields_ = [("function_code", c_uint8),
("checksum", c_uint8)]` with `_pack_ = 1`.  A `c_uint8` field always holds a
value in `0..255` (ctypes stores assignments modulo 2^8). -/
structure CcsdsSecondaryCmdHeader where
  function_code : Nat
  checksum : Nat
deriving DecidableEq

/-- `bytes(h)` for the command secondary header: each `c_uint8` field in
declaration order, `_pack_ = 1` so no padding. -/
def CcsdsSecondaryCmdHeader.encode (h : CcsdsSecondaryCmdHeader) : List Nat :=
  beBytes 1 h.function_code ++ beBytes 1 h.checksum

/-- `CcsdsSecondaryCmdHeader.from_buffer_copy`: requires a buffer of at least
2 bytes and reads the two `c_uint8` fields in declaration order. -/
def CcsdsSecondaryCmdHeader.decode : List Nat → Option CcsdsSecondaryCmdHeader
  | b0 :: b1 :: _ => some ⟨beVal [b0], beVal [b1]⟩
  | _ => none

/-- `set_function_code`: plain assignment to the `c_uint8` field; ctypes does
no overflow checking and stores the value modulo 2^8 (Python `%`, so the
stored value is non-negative also for negative arguments). -/
def CcsdsSecondaryCmdHeader.set_function_code (h : CcsdsSecondaryCmdHeader)
    (function_code : Int) : CcsdsSecondaryCmdHeader :=
  { h with function_code := (function_code % 256).toNat }

/-- `set_checksum`: plain assignment to the `c_uint8` field, stored modulo
2^8 as for `set_function_code`. -/
def CcsdsSecondaryCmdHeader.set_checksum (h : CcsdsSecondaryCmdHeader)
    (checksum : Int) : CcsdsSecondaryCmdHeader :=
  { h with checksum := (checksum % 256).toNat }

/-- `get_function_code`: plain field read. -/
def CcsdsSecondaryCmdHeader.get_function_code (h : CcsdsSecondaryCmdHeader) : Nat :=
  h.function_code

/-- `get_checksum`: plain field read. -/
def CcsdsSecondaryCmdHeader.get_checksum (h : CcsdsSecondaryCmdHeader) : Nat :=
  h.checksum

/-- `CcsdsSecondaryTlmHeader`: `_fields_ = [("timestamp_seconds", c_uint32),
("timestamp_subseconds", c_uint16)]` with `_pack_ = 1`. -/
structure CcsdsSecondaryTlmHeader where
  timestamp_seconds : Nat
  timestamp_subseconds : Nat
deriving DecidableEq

/-- `bytes(h)` for the telemetry secondary header: the `c_uint32` field as 4
big-endian bytes followed by the `c_uint16` field as 2 big-endian bytes,
`_pack_ = 1` so no padding. -/
def CcsdsSecondaryTlmHeader.encode (h : CcsdsSecondaryTlmHeader) : List Nat :=
  beBytes 4 h.timestamp_seconds ++ beBytes 2 h.timestamp_subseconds

/-- `CcsdsSecondaryTlmHeader.from_buffer_copy`: requires a buffer of at least
6 bytes; the first 4 form `timestamp_seconds` (big-endian) and the next 2
form `timestamp_subseconds` (big-endian). -/
def CcsdsSecondaryTlmHeader.decode : List Nat → Option CcsdsSecondaryTlmHeader
  | b0 :: b1 :: b2 :: b3 :: b4 :: b5 :: _ =>
      some ⟨beVal [b0, b1, b2, b3], beVal [b4, b5]⟩
  | _ => none

theorem beBytes_one (v : Nat) : beBytes 1 v = [v % 256] := rfl

theorem beBytes_two (v : Nat) : beBytes 2 v = [v / 256 % 256, v % 256] := rfl

theorem beBytes_four (v : Nat) :
    beBytes 4 v = [v / 256 / 256 / 256 % 256, v / 256 / 256 % 256,
      v / 256 % 256, v % 256] := rfl

theorem beVal_two (b0 b1 : Nat) : beVal [b0, b1] = b0 * 256 + b1 := by
  simp [beVal, List.foldl]

theorem beVal_four (b0 b1 b2 b3 : Nat) :
    beVal [b0, b1, b2, b3] = ((b0 * 256 + b1) * 256 + b2) * 256 + b3 := by
  simp [beVal, List.foldl]

/-- C5: for command headers with both fields in `0..255` and telemetry headers
with `timestamp_seconds < 2^32` and `timestamp_subseconds < 2^16`, decoding
the encoded bytes returns the original header, and the encoded forms are
exactly 2 bytes (command) and 6 bytes (telemetry). -/
theorem ccsds_secondary_header_roundtrip :
    (∀ h : CcsdsSecondaryCmdHeader, h.function_code < 256 → h.checksum < 256 →
      CcsdsSecondaryCmdHeader.decode h.encode = some h ∧ h.encode.length = 2) ∧
    (∀ h : CcsdsSecondaryTlmHeader, h.timestamp_seconds < 2 ^ 32 →
      h.timestamp_subseconds < 2 ^ 16 →
      CcsdsSecondaryTlmHeader.decode h.encode = some h ∧ h.encode.length = 6) := by
  constructor
  · rintro ⟨fc, cs⟩ hfc hcs
    dsimp only at hfc hcs
    refine ⟨?_, rfl⟩
    simp [CcsdsSecondaryCmdHeader.encode, beBytes,
      CcsdsSecondaryCmdHeader.decode, beVal]
    omega
  · rintro ⟨ts, sub⟩ hts hsub
    dsimp only at hts hsub
    refine ⟨?_, rfl⟩
    simp [CcsdsSecondaryTlmHeader.encode, beBytes,
      CcsdsSecondaryTlmHeader.decode, beVal]
    omega

/-- Witness for C5 at concrete headers. -/
theorem ccsds_secondary_header_roundtrip_witness :
    CcsdsSecondaryCmdHeader.decode (CcsdsSecondaryCmdHeader.encode ⟨17, 253⟩) =
      some ⟨17, 253⟩ ∧
    CcsdsSecondaryTlmHeader.decode (CcsdsSecondaryTlmHeader.encode ⟨305419896, 43981⟩) =
      some ⟨305419896, 43981⟩ :=
  ⟨(ccsds_secondary_header_roundtrip.1 ⟨17, 253⟩ (by decide) (by decide)).1,
   (ccsds_secondary_header_roundtrip.2 ⟨305419896, 43981⟩ (by decide) (by decide)).1⟩

/-- C6: for valid field values, the serialized command header is
`[function_code, checksum]` (one byte each) and the serialized telemetry
header is the 4 big-endian bytes of `timestamp_seconds` followed by the 2
big-endian bytes of `timestamp_subseconds`, with no padding and fields in
declaration order. -/
theorem ccsds_secondary_header_layout :
    (∀ h : CcsdsSecondaryCmdHeader, h.function_code < 256 → h.checksum < 256 →
      h.encode = [h.function_code, h.checksum]) ∧
    (∀ h : CcsdsSecondaryTlmHeader, h.timestamp_seconds < 2 ^ 32 →
      h.timestamp_subseconds < 2 ^ 16 →
      h.encode = [h.timestamp_seconds / 2 ^ 24, h.timestamp_seconds / 2 ^ 16 % 256,
        h.timestamp_seconds / 2 ^ 8 % 256, h.timestamp_seconds % 256,
        h.timestamp_subseconds / 2 ^ 8, h.timestamp_subseconds % 256]) := by
  constructor
  · rintro ⟨fc, cs⟩ hfc hcs
    dsimp only at hfc hcs
    simp [CcsdsSecondaryCmdHeader.encode, beBytes]
    omega
  · rintro ⟨ts, sub⟩ hts hsub
    dsimp only at hts hsub
    simp [CcsdsSecondaryTlmHeader.encode, beBytes]
    omega

/-- Witness for C6 at concrete headers. -/
theorem ccsds_secondary_header_layout_witness :
    CcsdsSecondaryCmdHeader.encode ⟨17, 253⟩ = [17, 253] ∧
    CcsdsSecondaryTlmHeader.encode ⟨305419896, 43981⟩ =
      [18, 52, 86, 120, 171, 205] :=
  ⟨ccsds_secondary_header_layout.1 ⟨17, 253⟩ (by decide) (by decide),
   ccsds_secondary_header_layout.2 ⟨305419896, 43981⟩ (by decide) (by decide)⟩

/-- C7: `set_function_code`/`set_checksum` store any integer argument modulo
256 (no range check, no failure), and the getters read it back. -/
theorem cmd_header_setters_mod256 (h : CcsdsSecondaryCmdHeader) (v : Int) :
    ((h.set_function_code v).get_function_code : Int) = v % 256 ∧
    ((h.set_checksum v).get_checksum : Int) = v % 256 := by
  have hnn : (0 : Int) ≤ v % 256 := Int.emod_nonneg v (by norm_num)
  constructor <;>
    simp [CcsdsSecondaryCmdHeader.set_function_code,
      CcsdsSecondaryCmdHeader.set_checksum,
      CcsdsSecondaryCmdHeader.get_function_code,
      CcsdsSecondaryCmdHeader.get_checksum, Int.toNat_of_nonneg hnn]

/-! ## cFS polling time manager

`CfsTimeManager` (in `plugins/cfs/cfs_time_manager.py`) extends the base
`TimeInterface`.  The base class is not part of this repository snapshot;
following the spec, its `wait`, `pre_command` and `post_command` are no-op
hook points and `exec_time` is its simulated-time accumulator, here threaded
explicitly through `wait`.  Exceptions are embedded as values of `Exc`:
`condErr` models `CtfConditionError`, `testErr` any other `CtfTestError`,
and `otherErr` any other Python `Exception`.  Each target's behaviour is a
function from the poll index (the number of completed polls so far) to the
outcome of its `read_sb_packets` and `check_tlm_conditions` calls, and runs
are instrumented with an `Event` trace recording every call made. -/

/-- Exception kinds relevant to the time manager: `CtfConditionError`, other
`CtfTestError`, and any other Python `Exception`. -/
inductive Exc
  | condErr
  | testErr
  | otherErr
deriving DecidableEq

/-- One cFS target from the `cfs_targets` registry: its `read_sb_packets`
and `check_tlm_conditions` outcomes as a function of the poll index. -/
structure CfsTarget where
  readExc : Nat → Option Exc
  checkExc : Nat → Option Exc

/-- Trace events: each call the time manager makes during a wait, tagged
with the poll index and (for per-target calls) the target's registry
position. -/
inductive Event
  | readCall (poll tgt : Nat)
  | checkCall (poll tgt : Nat)
  | verifyCall (poll : Nat)
  | preCall (poll : Nat)
  | postCall (poll : Nat)
deriving DecidableEq

/-- `target.cfs.read_sb_packets()` on poll `n`: returns or raises according
to the target's behaviour. -/
def read_sb_packets (t : CfsTarget) (n : Nat) : Except Exc Unit :=
  match t.readExc n with
  | some e => Except.error e
  | none => Except.ok ()

/-- The `for target in self.cfs_targets.values()` loop of `pre_command`:
each target's `read_sb_packets` is attempted under `try`/`except Exception`,
which logs and suppresses any exception, so the loop always continues with
the next target.  `i` is the registry position of the first target. -/
def readTargets (targets : List CfsTarget) (n i : Nat) : List Event :=
  match targets with
  | [] => []
  | t :: rest =>
    match read_sb_packets t n with
    | Except.ok _ => Event.readCall n i :: readTargets rest n (i + 1)
    | Except.error _ => Event.readCall n i :: readTargets rest n (i + 1)

/-- `target.cfs.check_tlm_conditions()` on poll `n`. -/
def check_tlm_conditions (t : CfsTarget) (n : Nat) : Except Exc Unit :=
  match t.checkExc n with
  | some e => Except.error e
  | none => Except.ok ()

/-- The `for` loop inside `run_continuous_verifications`: targets are
checked in registry order; the first exception aborts the loop and
propagates (there is no handler around an individual check). -/
def checkTargets (targets : List CfsTarget) (n i : Nat) : List Event × Option Exc :=
  match targets with
  | [] => ([], none)
  | t :: rest =>
    match check_tlm_conditions t n with
    | Except.ok _ =>
      let r := checkTargets rest n (i + 1)
      (Event.checkCall n i :: r.1, r.2)
    | Except.error e => ([Event.checkCall n i], some e)

/-- `run_continuous_verifications`: checks every target in order; its
`except CtfConditionError` handler logs and re-raises the same exception,
so the outcome of the loop is returned unchanged. -/
def run_continuous_verifications (targets : List CfsTarget) (n : Nat) :
    List Event × Option Exc :=
  let r := checkTargets targets n 0
  (Event.verifyCall n :: r.1, r.2)

/-- `pre_command`: calls the (no-op) base hook, reads telemetry from every
target with per-target suppression, then runs continuous verifications.
Its handlers re-raise `CtfConditionError` and `CtfTestError`, and any other
exception propagates uncaught, so every verification exception escapes. -/
def pre_command (targets : List CfsTarget) (n : Nat) : List Event × Option Exc :=
  let rd := readTargets targets n 0
  let vr := run_continuous_verifications targets n
  (Event.preCall n :: rd ++ vr.1, vr.2)

/-- `post_command`: only the no-op base hook, so it never raises. -/
def post_command (n : Nat) : List Event := [Event.postCall n]

/-- Result of a `wait` call: the trace of calls made, the final `exec_time`,
and the exception propagated to the caller, if any. -/
structure WaitResult where
  events : List Event
  execTime : ℚ
  err : Option Exc
deriving DecidableEq

/-- The `while self.exec_time < start_time + seconds` loop of `wait`.
One iteration runs `pre_command` (whose `CtfTestError`s are re-raised by
`handle_test_exception_during_wait` with `do_raise=True`, and whose other
exceptions propagate uncaught — so any exception aborts the wait with
`exec_time` not yet advanced), then `post_command` (which cannot raise),
then `time.sleep(poll_period)` (no model state), then advances `exec_time`
by the poll period.  `fuel` is an upper bound on the remaining iterations,
supplied by `wait` so that the loop guard, not the fuel, ends the loop;
`t` is the current `exec_time` and `n` the number of completed polls. -/
def wait_loop (targets : List CfsTarget) (p stop : ℚ) :
    Nat → ℚ → Nat → WaitResult
  | 0, t, _ => ⟨[], t, none⟩
  | fuel + 1, t, n =>
    if t < stop then
      let pre := pre_command targets n
      match pre.2 with
      | some e => ⟨pre.1, t, some e⟩
      | none =>
        let rest := wait_loop targets p stop fuel (t + p) (n + 1)
        ⟨pre.1 ++ post_command n ++ rest.events, rest.execTime, rest.err⟩
    else ⟨[], t, none⟩

/-- Number of loop iterations `wait(seconds)` can perform with poll period
`p`: the loop adds `p` to `exec_time` each iteration, so `⌈seconds / p⌉`
iterations suffice for the guard to fail (0 when `seconds ≤ 0` or `p ≤ 0`,
where the guard fails at once or the Python loop would not terminate). -/
def pollFuel (p seconds : ℚ) : Nat := (⌈seconds / p⌉).toNat

/-- `CfsTimeManager.wait(seconds)`: calls the (no-op) base `wait`, records
`start_time = self.exec_time`, and runs the polling loop with
`ctf_verification_poll_period = p`. -/
def wait (targets : List CfsTarget) (p seconds execTime : ℚ) : WaitResult :=
  wait_loop targets p (execTime + seconds) (pollFuel p seconds) execTime 0

/-- Number of polls started during a wait: the `pre_command` calls in the
trace (the loop body invokes `pre_command` exactly once per iteration). -/
def pollsStarted (ev : List Event) : Nat :=
  ev.countP fun e =>
    match e with
    | Event.preCall _ => true
    | _ => false

/-- The trace of one completed (non-aborting) loop iteration at poll `n`. -/
def blockEvents (targets : List CfsTarget) (n : Nat) : List Event :=
  (pre_command targets n).1 ++ post_command n

/-! ### Structural lemmas about a single poll -/

theorem readTargets_eq (n : Nat) (targets : List CfsTarget) :
    ∀ i, readTargets targets n i =
      (List.range targets.length).map fun j => Event.readCall n (i + j) := by
  induction targets with
  | nil => intro i; simp [readTargets]
  | cons t rest ih =>
    intro i
    have hstep : readTargets (t :: rest) n i =
        Event.readCall n i :: readTargets rest n (i + 1) := by
      rw [readTargets]
      cases read_sb_packets t n <;> rfl
    have hfun : (fun j => Event.readCall n (i + 1 + j)) =
        ((fun j => Event.readCall n (i + j)) ∘ Nat.succ) := by
      funext j
      simp only [Function.comp_apply]
      congr 1
      omega
    rw [hstep, ih (i + 1), hfun, List.length_cons, List.range_succ_eq_map,
      List.map_cons, List.map_map]
    simp

theorem mem_readTargets_shape {n : Nat} {targets : List CfsTarget} {i : Nat}
    {e : Event} (he : e ∈ readTargets targets n i) :
    ∃ j, e = Event.readCall n j := by
  rw [readTargets_eq] at he
  obtain ⟨j, _, rfl⟩ := List.mem_map.mp he
  exact ⟨i + j, rfl⟩

theorem readCall_mem_readTargets {targets : List CfsTarget} (n : Nat) {j : Nat}
    (hj : j < targets.length) : Event.readCall n j ∈ readTargets targets n 0 := by
  rw [readTargets_eq]
  exact List.mem_map.mpr ⟨j, List.mem_range.mpr hj, by simp⟩

theorem mem_checkTargets_shape {n : Nat} {e : Event} :
    ∀ {targets : List CfsTarget} {i : Nat}, e ∈ (checkTargets targets n i).1 →
      ∃ j, e = Event.checkCall n j := by
  intro targets
  induction targets with
  | nil => intro i he; simp [checkTargets] at he
  | cons t rest ih =>
    intro i he
    rw [checkTargets] at he
    cases hc : check_tlm_conditions t n with
    | ok u =>
      rw [hc] at he
      rcases List.mem_cons.mp he with h | h
      · exact ⟨i, h⟩
      · exact ih h
    | error e2 =>
      rw [hc] at he
      rcases List.mem_cons.mp he with h | h
      · exact ⟨i, h⟩
      · simp at h

theorem checkTargets_none {n : Nat} :
    ∀ {targets : List CfsTarget}, (∀ t ∈ targets, t.checkExc n = none) →
      ∀ i, (checkTargets targets n i).2 = none := by
  intro targets
  induction targets with
  | nil => intro _ i; rfl
  | cons t rest ih =>
    intro h i
    have ht : check_tlm_conditions t n = Except.ok () := by
      simp [check_tlm_conditions, h t (List.mem_cons_self t rest)]
    simp [checkTargets, ht]
    exact ih (fun u hu => h u (List.mem_cons_of_mem t hu)) (i + 1)

theorem pre_command_events (targets : List CfsTarget) (n : Nat) :
    (pre_command targets n).1 =
      Event.preCall n :: (readTargets targets n 0 ++
        Event.verifyCall n :: (checkTargets targets n 0).1) := rfl

theorem pre_command_err (targets : List CfsTarget) (n : Nat) :
    (pre_command targets n).2 = (checkTargets targets n 0).2 := rfl

theorem preCall_mem_pre_command {targets : List CfsTarget} {m n : Nat} :
    Event.preCall m ∈ (pre_command targets n).1 ↔ m = n := by
  rw [pre_command_events]
  constructor
  · intro hm
    rcases List.mem_cons.mp hm with h | h
    · injection h
    · rcases List.mem_append.mp h with h | h
      · obtain ⟨j, hj⟩ := mem_readTargets_shape h
        exact Event.noConfusion hj
      · rcases List.mem_cons.mp h with h | h
        · exact Event.noConfusion h
        · obtain ⟨j, hj⟩ := mem_checkTargets_shape h
          exact Event.noConfusion hj
  · rintro rfl
    exact List.mem_cons_self _ _

theorem postCall_not_mem_pre_command {targets : List CfsTarget} {m n : Nat} :
    Event.postCall m ∉ (pre_command targets n).1 := by
  rw [pre_command_events]
  intro hm
  rcases List.mem_cons.mp hm with h | h
  · exact Event.noConfusion h
  · rcases List.mem_append.mp h with h | h
    · obtain ⟨j, hj⟩ := mem_readTargets_shape h
      exact Event.noConfusion hj
    · rcases List.mem_cons.mp h with h | h
      · exact Event.noConfusion h
      · obtain ⟨j, hj⟩ := mem_checkTargets_shape h
        exact Event.noConfusion hj

theorem verifyCall_mem_pre_command {targets : List CfsTarget} (n : Nat) :
    Event.verifyCall n ∈ (pre_command targets n).1 := by
  rw [pre_command_events]
  exact List.mem_cons_of_mem _ (List.mem_append_right _ (List.mem_cons_self _ _))

theorem readCall_mem_pre_command {targets : List CfsTarget} (n : Nat) {j : Nat}
    (hj : j < targets.length) : Event.readCall n j ∈ (pre_command targets n).1 := by
  rw [pre_command_events]
  exact List.mem_cons_of_mem _ (List.mem_append_left _ (readCall_mem_readTargets n hj))

theorem pollsStarted_pre_command (targets : List CfsTarget) (n : Nat) :
    pollsStarted (pre_command targets n).1 = 1 := by
  have h1 : (readTargets targets n 0).countP
      (fun e => match e with | Event.preCall _ => true | _ => false) = 0 := by
    rw [List.countP_eq_zero]
    intro e he
    obtain ⟨j, rfl⟩ := mem_readTargets_shape he
    simp
  have h2 : ((checkTargets targets n 0).1).countP
      (fun e => match e with | Event.preCall _ => true | _ => false) = 0 := by
    rw [List.countP_eq_zero]
    intro e he
    obtain ⟨j, rfl⟩ := mem_checkTargets_shape he
    simp
  rw [pollsStarted, pre_command_events]
  simp [List.countP_cons, List.countP_append, h1, h2]

theorem pollsStarted_blockEvents (targets : List CfsTarget) (n : Nat) :
    pollsStarted (blockEvents targets n) = 1 := by
  have h := pollsStarted_pre_command targets n
  rw [pollsStarted] at h
  rw [blockEvents, pollsStarted, List.countP_append, h]
  rfl

/-! ### Unfolding lemmas for the wait loop -/

theorem wait_loop_stop {targets : List CfsTarget} {p stop t : ℚ}
    (fuel n : Nat) (h : ¬ t < stop) :
    wait_loop targets p stop fuel t n = ⟨[], t, none⟩ := by
  cases fuel with
  | zero => rfl
  | succ f => simp [wait_loop, h]

theorem wait_loop_succ_abort {targets : List CfsTarget} {p stop t : ℚ}
    {fuel n : Nat} {e : Exc} (ht : t < stop)
    (hc : (checkTargets targets n 0).2 = some e) :
    wait_loop targets p stop (fuel + 1) t n =
      ⟨(pre_command targets n).1, t, some e⟩ := by
  have h2 : (pre_command targets n).2 = some e := by rw [pre_command_err, hc]
  simp [wait_loop, ht, h2]

theorem wait_loop_succ_ok {targets : List CfsTarget} {p stop t : ℚ}
    {fuel n : Nat} (ht : t < stop)
    (hc : (checkTargets targets n 0).2 = none) :
    wait_loop targets p stop (fuel + 1) t n =
      ⟨blockEvents targets n ++
          (wait_loop targets p stop fuel (t + p) (n + 1)).events,
        (wait_loop targets p stop fuel (t + p) (n + 1)).execTime,
        (wait_loop targets p stop fuel (t + p) (n + 1)).err⟩ := by
  have h2 : (pre_command targets n).2 = none := by rw [pre_command_err, hc]
  simp [wait_loop, ht, h2, blockEvents, List.append_assoc]

theorem wait_loop_starts {targets : List CfsTarget} {p stop t : ℚ}
    {fuel n : Nat} (hfuel : 1 ≤ fuel) (ht : t < stop) :
    Event.preCall n ∈ (wait_loop targets p stop fuel t n).events := by
  obtain ⟨f, rfl⟩ : ∃ f, fuel = f + 1 := ⟨fuel - 1, by omega⟩
  cases hc : (checkTargets targets n 0).2 with
  | none =>
    rw [wait_loop_succ_ok ht hc]
    exact List.mem_append_left _
      (List.mem_append_left _ (preCall_mem_pre_command.mpr rfl))
  | some e =>
    rw [wait_loop_succ_abort ht hc]
    exact preCall_mem_pre_command.mpr rfl

theorem wait_loop_execTime_mono (targets : List CfsTarget) (p stop : ℚ)
    (hp : 0 < p) :
    ∀ (fuel : Nat) (t : ℚ) (n : Nat),
      t ≤ (wait_loop targets p stop fuel t n).execTime := by
  intro fuel
  induction fuel with
  | zero => intro t n; exact le_rfl
  | succ f ih =>
    intro t n
    by_cases ht : t < stop
    · cases hc : (checkTargets targets n 0).2 with
      | none =>
        rw [wait_loop_succ_ok ht hc]
        exact le_trans (by linarith) (ih (t + p) (n + 1))
      | some e =>
        rw [wait_loop_succ_abort ht hc]
    · rw [wait_loop_stop _ _ ht]

/-- Decomposition of the wait loop: while the guard holds and the
verifications pass, each iteration contributes one block of events and one
poll-period increment. -/
theorem wait_loop_split (targets : List CfsTarget) (p stop : ℚ) :
    ∀ (j fuel : Nat) (t : ℚ) (n : Nat),
      (∀ m < j, (checkTargets targets (n + m) 0).2 = none ∧ t + m * p < stop) →
      j ≤ fuel →
      wait_loop targets p stop fuel t n =
        ⟨((List.range j).map fun i => blockEvents targets (n + i)).flatten ++
            (wait_loop targets p stop (fuel - j) (t + j * p) (n + j)).events,
          (wait_loop targets p stop (fuel - j) (t + j * p) (n + j)).execTime,
          (wait_loop targets p stop (fuel - j) (t + j * p) (n + j)).err⟩ := by
  intro j
  induction j with
  | zero =>
    intro fuel t n _ _
    simp
  | succ j ih =>
    intro fuel t n hguard hfuel
    obtain ⟨f, rfl⟩ : ∃ f, fuel = f + 1 := ⟨fuel - 1, by omega⟩
    have h0 := hguard 0 (Nat.succ_pos j)
    have ht : t < stop := by
      have := h0.2
      simpa using this
    have hc : (checkTargets targets n 0).2 = none := by
      have := h0.1
      simpa using this
    have hguard2 : ∀ m < j, (checkTargets targets (n + 1 + m) 0).2 = none ∧
        (t + p) + m * p < stop := by
      intro m hm
      have h1 := hguard (m + 1) (by omega)
      constructor
      · have : n + 1 + m = n + (m + 1) := by omega
        rw [this]
        exact h1.1
      · have harith : t + p + (m : ℚ) * p = t + ((m : ℚ) + 1) * p := by ring
        rw [harith]
        have hcast : ((m : ℚ) + 1) = ((m + 1 : Nat) : ℚ) := by push_cast; ring
        rw [hcast]
        exact h1.2
    rw [wait_loop_succ_ok ht hc, ih f (t + p) (n + 1) hguard2 (by omega)]
    have e1 : f + 1 - (j + 1) = f - j := by omega
    have e2 : n + (j + 1) = n + 1 + j := by omega
    have e3 : t + ((j + 1 : Nat) : ℚ) * p = (t + p) + (j : ℚ) * p := by
      push_cast
      ring
    rw [e1, e2, e3]
    have e4 : ((List.range (j + 1)).map fun i => blockEvents targets (n + i)).flatten =
        blockEvents targets n ++
          ((List.range j).map fun i => blockEvents targets (n + 1 + i)).flatten := by
      rw [List.range_succ_eq_map, List.map_cons, List.map_map, List.flatten_cons]
      have hfun : ((fun i => blockEvents targets (n + i)) ∘ Nat.succ) =
          fun i => blockEvents targets (n + 1 + i) := by
        funext i
        simp only [Function.comp_apply]
        congr 1
        omega
      rw [hfun]
      simp
    rw [e4, List.append_assoc]

theorem wait_loop_fuel_zero (targets : List CfsTarget) (p stop t : ℚ) (n : Nat) :
    wait_loop targets p stop 0 t n = ⟨[], t, none⟩ := rfl

theorem pollFuel_guard (p seconds : ℚ) (hp : 0 < p) {m : Nat}
    (hm : m < pollFuel p seconds) : (m : ℚ) * p < seconds := by
  rw [pollFuel, Int.lt_toNat, Int.lt_ceil] at hm
  have h2 : (m : ℚ) < seconds / p := by exact_mod_cast hm
  exact (lt_div_iff₀ hp).mp h2

theorem lt_pollFuel (p seconds : ℚ) (hp : 0 < p) {k : Nat}
    (hk : (k : ℚ) * p < seconds) : k < pollFuel p seconds := by
  rw [pollFuel, Int.lt_toNat, Int.lt_ceil]
  rw [lt_div_iff₀ hp]
  exact_mod_cast hk

theorem pollFuel_le (p seconds : ℚ) (hp : 0 < p) :
    seconds ≤ ((pollFuel p seconds : ℕ) : ℚ) * p := by
  rw [pollFuel]
  rcases le_or_lt 0 (⌈seconds / p⌉ : ℤ) with h | h
  · have hcast : ((⌈seconds / p⌉.toNat : ℕ) : ℚ) = ((⌈seconds / p⌉ : ℤ) : ℚ) := by
      exact_mod_cast Int.toNat_of_nonneg h
    rw [hcast]
    have hle : seconds / p ≤ ((⌈seconds / p⌉ : ℤ) : ℚ) := Int.le_ceil _
    calc seconds = seconds / p * p := by field_simp
      _ ≤ ((⌈seconds / p⌉ : ℤ) : ℚ) * p := by
          exact mul_le_mul_of_nonneg_right hle hp.le
  · have h0 : ⌈seconds / p⌉.toNat = 0 := Int.toNat_of_nonpos h.le
    rw [h0]
    have hle : seconds / p ≤ ((⌈seconds / p⌉ : ℤ) : ℚ) := Int.le_ceil _
    have hneg : seconds / p < 0 := lt_of_le_of_lt hle (by exact_mod_cast h)
    have hs : seconds < 0 := by
      rcases div_neg_iff.mp hneg with ⟨_, hb⟩ | ⟨ha, _⟩
      · linarith
      · exact ha
    push_cast
    nlinarith

/-- Full characterization of a failure-free wait: `⌈seconds / p⌉` complete
poll blocks, `exec_time` advanced by that many poll periods, no exception. -/
theorem wait_noabort_char (targets : List CfsTarget) (p seconds start : ℚ)
    (hp : 0 < p) (hchk : ∀ m, (checkTargets targets m 0).2 = none) :
    wait targets p seconds start =
      ⟨((List.range (pollFuel p seconds)).map fun i =>
          blockEvents targets i).flatten,
        start + ((pollFuel p seconds : ℕ) : ℚ) * p, none⟩ := by
  rw [wait]
  rw [wait_loop_split targets p (start + seconds) (pollFuel p seconds)
    (pollFuel p seconds) start 0 ?_ le_rfl]
  · have hstop : ¬ (start + ((pollFuel p seconds : ℕ) : ℚ) * p < start + seconds) := by
      have h := pollFuel_le p seconds hp
      linarith
    rw [Nat.sub_self, wait_loop_fuel_zero]
    simp
  · intro m hm
    refine ⟨by rw [Nat.zero_add]; exact hchk m, ?_⟩
    have := pollFuel_guard p seconds hp hm
    linarith

/-- Full characterization of a wait aborted by a verification exception on
poll `k`: `k` complete blocks, one partial block ending inside
`pre_command`, `exec_time` advanced by exactly `k` poll periods, and the
exception propagated. -/
theorem wait_abort_char (targets : List CfsTarget) (p seconds start : ℚ)
    (k : Nat) (e : Exc) (hp : 0 < p) (hkp : (k : ℚ) * p < seconds)
    (hpre : ∀ m < k, (checkTargets targets m 0).2 = none)
    (hk : (checkTargets targets k 0).2 = some e) :
    wait targets p seconds start =
      ⟨((List.range k).map fun i => blockEvents targets i).flatten ++
          (pre_command targets k).1,
        start + (k : ℚ) * p, some e⟩ := by
  rw [wait]
  have hkf : k < pollFuel p seconds := lt_pollFuel p seconds hp hkp
  rw [wait_loop_split targets p (start + seconds) k (pollFuel p seconds)
    start 0 ?_ (by omega)]
  · simp only [Nat.zero_add]
    obtain ⟨f, hf⟩ : ∃ f, pollFuel p seconds - k = f + 1 :=
      ⟨pollFuel p seconds - k - 1, by omega⟩
    rw [hf]
    have ht : start + (k : ℚ) * p < start + seconds := by linarith
    rw [wait_loop_succ_abort ht hk]
  · intro m hm
    refine ⟨by rw [Nat.zero_add]; exact hpre m hm, ?_⟩
    have h1 : (m : ℚ) * p < (k : ℚ) * p := by
      have hmk : (m : ℚ) < (k : ℚ) := by exact_mod_cast hm
      exact mul_lt_mul_of_pos_right hmk hp
    linarith

theorem pollsStarted_flatten_blocks (targets : List CfsTarget) :
    ∀ l : List Nat,
      pollsStarted ((l.map fun i => blockEvents targets i).flatten) = l.length := by
  intro l
  induction l with
  | nil => rfl
  | cons a l ih =>
    rw [List.map_cons, List.flatten_cons, pollsStarted, List.countP_append]
    have hb := pollsStarted_blockEvents targets a
    rw [pollsStarted] at hb
    rw [pollsStarted] at ih
    rw [hb, ih, List.length_cons]
    omega

/-- C1: with a positive poll period, positive duration, and no telemetry or
verification failures, `wait(seconds)` returns without exception after
exactly `⌈seconds / p⌉` polls, leaving `exec_time` advanced by exactly
`⌈seconds / p⌉ * p`. -/
theorem cfs_wait_poll_count (targets : List CfsTarget) (p seconds start : ℚ)
    (hp : 0 < p) (hs : 0 < seconds)
    (hok : ∀ t ∈ targets, ∀ m, t.readExc m = none ∧ t.checkExc m = none) :
    (wait targets p seconds start).err = none ∧
    pollsStarted (wait targets p seconds start).events = (⌈seconds / p⌉).toNat ∧
    (wait targets p seconds start).execTime =
      start + ((⌈seconds / p⌉ : ℤ) : ℚ) * p := by
  have hchk : ∀ m, (checkTargets targets m 0).2 = none := fun m =>
    checkTargets_none (fun t ht => (hok t ht m).2) 0
  rw [wait_noabort_char targets p seconds start hp hchk]
  refine ⟨rfl, ?_, ?_⟩
  · rw [pollsStarted_flatten_blocks targets (List.range (pollFuel p seconds)),
      List.length_range]
    rfl
  · have hpos : 0 < ⌈seconds / p⌉ := Int.ceil_pos.mpr (div_pos hs hp)
    have hcast : ((pollFuel p seconds : ℕ) : ℚ) = ((⌈seconds / p⌉ : ℤ) : ℚ) := by
      rw [pollFuel]
      exact_mod_cast Int.toNat_of_nonneg hpos.le
    rw [hcast]

/-- Witness for C1: one healthy target, poll period 1, wait of 3 seconds. -/
theorem cfs_wait_poll_count_witness :
    (wait [⟨fun _ => none, fun _ => none⟩] 1 3 0).err = none ∧
    pollsStarted (wait [⟨fun _ => none, fun _ => none⟩] 1 3 0).events =
      (⌈(3 : ℚ) / 1⌉).toNat ∧
    (wait [⟨fun _ => none, fun _ => none⟩] 1 3 0).execTime =
      0 + ((⌈(3 : ℚ) / 1⌉ : ℤ) : ℚ) * 1 :=
  cfs_wait_poll_count [⟨fun _ => none, fun _ => none⟩] 1 3 0 one_pos three_pos
    (fun t ht m => by
      rw [List.mem_singleton] at ht
      subst ht
      exact ⟨rfl, rfl⟩)

/-- C10: for `seconds ≤ 0` the loop guard fails immediately: no poll, no
hook or target call, no exception, and `exec_time` unchanged. -/
theorem cfs_wait_nonpos_noop (targets : List CfsTarget) (p seconds start : ℚ)
    (hs : seconds ≤ 0) :
    wait targets p seconds start = ⟨[], start, none⟩ := by
  rw [wait]
  exact wait_loop_stop (pollFuel p seconds) 0 (not_lt.mpr (by linarith))

/-- Witness for C10 at `seconds = 0`. -/
theorem cfs_wait_nonpos_noop_witness :
    wait [⟨fun _ => none, fun _ => none⟩] 1 0 0 = ⟨[], 0, none⟩ :=
  cfs_wait_nonpos_noop [⟨fun _ => none, fun _ => none⟩] 1 0 0 le_rfl

/-- C9: with a positive poll period, `wait` never decreases `exec_time`,
whether it returns normally or aborts with a propagated exception; the loop
only ever adds the poll period to `exec_time`. -/
theorem cfs_wait_execTime_monotone (targets : List CfsTarget)
    (p seconds start : ℚ) (hp : 0 < p) :
    start ≤ (wait targets p seconds start).execTime := by
  rw [wait]
  exact wait_loop_execTime_mono targets p (start + seconds) hp
    (pollFuel p seconds) start 0

/-- Witness for C9. -/
theorem cfs_wait_execTime_monotone_witness :
    (0 : ℚ) ≤ (wait [⟨fun _ => none, fun _ => some Exc.condErr⟩] 1 5 0).execTime :=
  cfs_wait_execTime_monotone [⟨fun _ => none, fun _ => some Exc.condErr⟩] 1 5 0
    one_pos

/-- C2: if the verifications pass on polls `0..k-1` and poll `k` (which is
reached: `k * p < seconds`) raises a `CtfConditionError`, `wait` propagates
it at once: `k + 1` polls started, no later poll, and `exec_time` exactly
`k` poll increments past its starting value. -/
theorem cfs_wait_condition_failure_abort (targets : List CfsTarget)
    (p seconds start : ℚ) (k : Nat) (hp : 0 < p)
    (hkp : (k : ℚ) * p < seconds)
    (hpre : ∀ m < k, (checkTargets targets m 0).2 = none)
    (hk : (checkTargets targets k 0).2 = some Exc.condErr) :
    (wait targets p seconds start).err = some Exc.condErr ∧
    (wait targets p seconds start).execTime = start + (k : ℚ) * p ∧
    pollsStarted (wait targets p seconds start).events = k + 1 := by
  rw [wait_abort_char targets p seconds start k Exc.condErr hp hkp hpre hk]
  refine ⟨rfl, rfl, ?_⟩
  rw [pollsStarted, List.countP_append]
  have h1 := pollsStarted_flatten_blocks targets (List.range k)
  rw [pollsStarted] at h1
  have h2 := pollsStarted_pre_command targets k
  rw [pollsStarted] at h2
  rw [h1, h2, List.length_range]

/-- Witness for C2: condition failure on poll 1 of a 3-second wait. -/
theorem cfs_wait_condition_failure_abort_witness :
    (wait [⟨fun _ => none, fun m => if m = 1 then some Exc.condErr else none⟩]
        1 3 0).err = some Exc.condErr ∧
    (wait [⟨fun _ => none, fun m => if m = 1 then some Exc.condErr else none⟩]
        1 3 0).execTime = 0 + ((1 : ℕ) : ℚ) * 1 ∧
    pollsStarted (wait
        [⟨fun _ => none, fun m => if m = 1 then some Exc.condErr else none⟩]
        1 3 0).events = 1 + 1 :=
  cfs_wait_condition_failure_abort
    [⟨fun _ => none, fun m => if m = 1 then some Exc.condErr else none⟩]
    1 3 0 1 one_pos (by norm_num)
    (by
      intro m hm
      obtain rfl : m = 0 := by omega
      rfl)
    rfl

/-- C8: a generic `CtfTestError` (not a condition failure) raised by the
verification subsystem on poll `k` is likewise propagated by `wait`, not
suppressed: the wait aborts with that exception after `k + 1` started
polls. -/
theorem cfs_wait_generic_test_error_propagates (targets : List CfsTarget)
    (p seconds start : ℚ) (k : Nat) (hp : 0 < p)
    (hkp : (k : ℚ) * p < seconds)
    (hpre : ∀ m < k, (checkTargets targets m 0).2 = none)
    (hk : (checkTargets targets k 0).2 = some Exc.testErr) :
    (wait targets p seconds start).err = some Exc.testErr ∧
    (wait targets p seconds start).execTime = start + (k : ℚ) * p ∧
    pollsStarted (wait targets p seconds start).events = k + 1 := by
  rw [wait_abort_char targets p seconds start k Exc.testErr hp hkp hpre hk]
  refine ⟨rfl, rfl, ?_⟩
  rw [pollsStarted, List.countP_append]
  have h1 := pollsStarted_flatten_blocks targets (List.range k)
  rw [pollsStarted] at h1
  have h2 := pollsStarted_pre_command targets k
  rw [pollsStarted] at h2
  rw [h1, h2, List.length_range]

/-- Witness for C8: generic test error on the first poll. -/
theorem cfs_wait_generic_test_error_propagates_witness :
    (wait [⟨fun _ => none, fun _ => some Exc.testErr⟩] 1 2 0).err =
      some Exc.testErr ∧
    (wait [⟨fun _ => none, fun _ => some Exc.testErr⟩] 1 2 0).execTime =
      0 + ((0 : ℕ) : ℚ) * 1 ∧
    pollsStarted (wait [⟨fun _ => none, fun _ => some Exc.testErr⟩]
        1 2 0).events = 0 + 1 :=
  cfs_wait_generic_test_error_propagates
    [⟨fun _ => none, fun _ => some Exc.testErr⟩] 1 2 0 0 one_pos
    (by norm_num) (fun m hm => absurd hm (Nat.not_lt_zero m)) rfl

/-- C3: a telemetry-read exception on poll `k` is suppressed inside the
ingestion loop: every registered target is still read that poll, the
verification pass still runs that poll, and (the verifications passing and
the wait being long enough) poll `k + 1` still starts. -/
theorem cfs_wait_read_fault_isolated (targets : List CfsTarget)
    (p seconds start : ℚ) (k : Nat) (hp : 0 < p)
    (hkp : ((k : ℚ) + 1) * p < seconds)
    (hchk : ∀ m ≤ k, (checkTargets targets m 0).2 = none)
    (_hfail : ∃ t ∈ targets, t.readExc k ≠ none) :
    (∀ j < targets.length,
      Event.readCall k j ∈ (wait targets p seconds start).events) ∧
    Event.verifyCall k ∈ (wait targets p seconds start).events ∧
    Event.preCall (k + 1) ∈ (wait targets p seconds start).events := by
  have hk1 : ((k + 1 : ℕ) : ℚ) * p < seconds := by push_cast; linarith
  have hfuel : k + 1 < pollFuel p seconds := lt_pollFuel p seconds hp hk1
  have hguard : ∀ m < k + 1, (checkTargets targets (0 + m) 0).2 = none ∧
      start + (m : ℚ) * p < start + seconds := by
    intro m hm
    refine ⟨by rw [Nat.zero_add]; exact hchk m (by omega), ?_⟩
    have hmk : (m : ℚ) ≤ (k : ℚ) := by exact_mod_cast Nat.lt_succ_iff.mp hm
    have h1 : (m : ℚ) * p ≤ (k : ℚ) * p := mul_le_mul_of_nonneg_right hmk hp.le
    nlinarith
  rw [wait, wait_loop_split targets p (start + seconds) (k + 1)
    (pollFuel p seconds) start 0 hguard (by omega)]
  simp only [Nat.zero_add]
  have hblock : blockEvents targets k ∈
      (List.range (k + 1)).map fun i => blockEvents targets i :=
    List.mem_map.mpr ⟨k, List.mem_range.mpr (Nat.lt_succ_self k), rfl⟩
  have htail : Event.preCall (k + 1) ∈
      (wait_loop targets p (start + seconds) (pollFuel p seconds - (k + 1))
        (start + ((k + 1 : ℕ) : ℚ) * p) (k + 1)).events := by
    refine wait_loop_starts (by omega) ?_
    linarith
  refine ⟨?_, ?_, ?_⟩
  · intro j hj
    exact List.mem_append_left _ (List.mem_flatten.mpr
      ⟨blockEvents targets k, hblock,
        List.mem_append_left _ (readCall_mem_pre_command k hj)⟩)
  · exact List.mem_append_left _ (List.mem_flatten.mpr
      ⟨blockEvents targets k, hblock,
        List.mem_append_left _ (verifyCall_mem_pre_command k)⟩)
  · exact List.mem_append_right _ htail

/-- Witness for C3: two targets, the first one failing every telemetry
read. -/
theorem cfs_wait_read_fault_isolated_witness :
    (∀ j < [(⟨fun _ => some Exc.otherErr, fun _ => none⟩ : CfsTarget),
        ⟨fun _ => none, fun _ => none⟩].length,
      Event.readCall 0 j ∈
        (wait [⟨fun _ => some Exc.otherErr, fun _ => none⟩,
          ⟨fun _ => none, fun _ => none⟩] 1 2 0).events) ∧
    Event.verifyCall 0 ∈
      (wait [⟨fun _ => some Exc.otherErr, fun _ => none⟩,
        ⟨fun _ => none, fun _ => none⟩] 1 2 0).events ∧
    Event.preCall (0 + 1) ∈
      (wait [⟨fun _ => some Exc.otherErr, fun _ => none⟩,
        ⟨fun _ => none, fun _ => none⟩] 1 2 0).events :=
  cfs_wait_read_fault_isolated
    [⟨fun _ => some Exc.otherErr, fun _ => none⟩, ⟨fun _ => none, fun _ => none⟩]
    1 2 0 0 one_pos (by norm_num)
    (by
      intro m hm
      obtain rfl : m = 0 := by omega
      rfl)
    ⟨⟨fun _ => some Exc.otherErr, fun _ => none⟩, by simp, by simp⟩

/-- C4 counterexample: when the verification of the very first poll raises a
condition error, that poll has `pre_command` invoked (the exception arises
inside it) but `post_command` not invoked, so the aborted poll is not a
"neither hook" poll. -/
theorem hooks_paired_claim_counterexample :
    Event.preCall 0 ∈
      (wait [⟨fun _ => none, fun _ => some Exc.condErr⟩] 1 1 0).events ∧
    Event.postCall 0 ∉
      (wait [⟨fun _ => none, fun _ => some Exc.condErr⟩] 1 1 0).events := by
  rw [wait_abort_char [⟨fun _ => none, fun _ => some Exc.condErr⟩] 1 1 0 0
    Exc.condErr one_pos (by norm_num)
    (fun m hm => absurd hm (Nat.not_lt_zero m)) rfl]
  constructor
  · simp only [List.range_zero, List.map_nil, List.flatten_nil, List.nil_append]
    exact preCall_mem_pre_command.mpr rfl
  · simp only [List.range_zero, List.map_nil, List.flatten_nil, List.nil_append]
    exact postCall_not_mem_pre_command

theorem wait_loop_poll_lb (targets : List CfsTarget) (p stop : ℚ) :
    ∀ (fuel : Nat) (t : ℚ) (n m : Nat),
      (Event.preCall m ∈ (wait_loop targets p stop fuel t n).events → n ≤ m) ∧
      (Event.postCall m ∈ (wait_loop targets p stop fuel t n).events → n ≤ m) := by
  intro fuel
  induction fuel with
  | zero =>
    intro t n m
    rw [wait_loop_fuel_zero]
    constructor <;> intro h <;> exact absurd h (List.not_mem_nil _)
  | succ f ih =>
    intro t n m
    by_cases ht : t < stop
    · cases hc : (checkTargets targets n 0).2 with
      | some e =>
        rw [wait_loop_succ_abort ht hc]
        constructor
        · intro h
          exact le_of_eq (preCall_mem_pre_command.mp h).symm
        · intro h
          exact absurd h postCall_not_mem_pre_command
      | none =>
        rw [wait_loop_succ_ok ht hc]
        constructor
        · intro h
          rcases List.mem_append.mp h with h | h
          · rw [blockEvents] at h
            rcases List.mem_append.mp h with h | h
            · exact le_of_eq (preCall_mem_pre_command.mp h).symm
            · rw [post_command, List.mem_singleton] at h
              exact Event.noConfusion h
          · exact le_trans (Nat.le_succ n) ((ih (t + p) (n + 1) m).1 h)
        · intro h
          rcases List.mem_append.mp h with h | h
          · rw [blockEvents] at h
            rcases List.mem_append.mp h with h | h
            · exact absurd h postCall_not_mem_pre_command
            · rw [post_command, List.mem_singleton] at h
              injection h with h2
              omega
          · exact le_trans (Nat.le_succ n) ((ih (t + p) (n + 1) m).2 h)
    · rw [wait_loop_stop _ _ ht]
      constructor <;> intro h <;> exact absurd h (List.not_mem_nil _)

theorem wait_loop_hooks (targets : List CfsTarget) (p stop : ℚ) :
    ∀ (fuel : Nat) (t : ℚ) (n : Nat),
      (∀ m, Event.postCall m ∈ (wait_loop targets p stop fuel t n).events →
        Event.preCall m ∈ (wait_loop targets p stop fuel t n).events) ∧
      ((wait_loop targets p stop fuel t n).err = none →
        ∀ m, Event.preCall m ∈ (wait_loop targets p stop fuel t n).events →
          Event.postCall m ∈ (wait_loop targets p stop fuel t n).events) ∧
      (∀ e, (wait_loop targets p stop fuel t n).err = some e →
        ∃ k, Event.preCall k ∈ (wait_loop targets p stop fuel t n).events ∧
          Event.postCall k ∉ (wait_loop targets p stop fuel t n).events ∧
          ∀ m, Event.preCall m ∈ (wait_loop targets p stop fuel t n).events →
            Event.postCall m ∈ (wait_loop targets p stop fuel t n).events ∨
              m = k) := by
  intro fuel
  induction fuel with
  | zero =>
    intro t n
    rw [wait_loop_fuel_zero]
    exact ⟨fun m h => absurd h (List.not_mem_nil _),
      fun _ m h => absurd h (List.not_mem_nil _),
      fun e he => Option.noConfusion he⟩
  | succ f ih =>
    intro t n
    by_cases ht : t < stop
    · cases hc : (checkTargets targets n 0).2 with
      | some e0 =>
        rw [wait_loop_succ_abort ht hc]
        refine ⟨?_, ?_, ?_⟩
        · intro m h
          exact absurd h postCall_not_mem_pre_command
        · intro herr
          exact absurd herr (by simp)
        · intro e he
          exact ⟨n, preCall_mem_pre_command.mpr rfl, postCall_not_mem_pre_command,
            fun m hm => Or.inr (preCall_mem_pre_command.mp hm)⟩
      | none =>
        rw [wait_loop_succ_ok ht hc]
        have hblock_pre : ∀ m, Event.preCall m ∈ blockEvents targets n ↔ m = n := by
          intro m
          rw [blockEvents]
          constructor
          · intro h
            rcases List.mem_append.mp h with h | h
            · exact preCall_mem_pre_command.mp h
            · rw [post_command, List.mem_singleton] at h
              exact Event.noConfusion h
          · rintro rfl
            exact List.mem_append_left _ (preCall_mem_pre_command.mpr rfl)
        have hblock_post : ∀ m, Event.postCall m ∈ blockEvents targets n ↔ m = n := by
          intro m
          rw [blockEvents]
          constructor
          · intro h
            rcases List.mem_append.mp h with h | h
            · exact absurd h postCall_not_mem_pre_command
            · rw [post_command, List.mem_singleton] at h
              injection h with h2
          · rintro rfl
            exact List.mem_append_right _ (by rw [post_command]; exact List.mem_singleton.mpr rfl)
        refine ⟨?_, ?_, ?_⟩
        · intro m h
          rcases List.mem_append.mp h with h | h
          · exact List.mem_append_left _ ((hblock_pre m).mpr ((hblock_post m).mp h))
          · exact List.mem_append_right _ ((ih (t + p) (n + 1)).1 m h)
        · intro herr m h
          rcases List.mem_append.mp h with h | h
          · exact List.mem_append_left _ ((hblock_post m).mpr ((hblock_pre m).mp h))
          · exact List.mem_append_right _
              ((ih (t + p) (n + 1)).2.1 herr m h)
        · intro e he
          obtain ⟨k, hk1, hk2, hk3⟩ := (ih (t + p) (n + 1)).2.2 e he
          have hkn : n + 1 ≤ k :=
            (wait_loop_poll_lb targets p stop f (t + p) (n + 1) k).1 hk1
          refine ⟨k, List.mem_append_right _ hk1, ?_, ?_⟩
          · intro hmem
            rcases List.mem_append.mp hmem with h | h
            · have : k = n := (hblock_post k).mp h
              omega
            · exact hk2 h
          · intro m hm
            rcases List.mem_append.mp hm with h | h
            · have hmn : m = n := (hblock_pre m).mp h
              subst hmn
              exact Or.inl (List.mem_append_left _ ((hblock_post m).mpr rfl))
            · rcases hk3 m h with h2 | h2
              · exact Or.inl (List.mem_append_right _ h2)
              · exact Or.inr h2
    · rw [wait_loop_stop _ _ ht]
      exact ⟨fun m h => absurd h (List.not_mem_nil _),
        fun _ m h => absurd h (List.not_mem_nil _),
        fun e he => Option.noConfusion he⟩

/-- C4 amended: within each poll the hooks are never out of order
(`post_command` runs only in a poll whose `pre_command` ran), and on a
normal return every poll's `pre_command` is matched by a `post_command`;
but on an abort the exception arises inside `pre_command`, so the final
poll — and only that poll — has `pre_command` invoked without
`post_command`, rather than "neither hook" as the claim states. -/
theorem cfs_wait_hooks_amended (targets : List CfsTarget)
    (p seconds start : ℚ) :
    (∀ m, Event.postCall m ∈ (wait targets p seconds start).events →
      Event.preCall m ∈ (wait targets p seconds start).events) ∧
    ((wait targets p seconds start).err = none →
      ∀ m, Event.preCall m ∈ (wait targets p seconds start).events →
        Event.postCall m ∈ (wait targets p seconds start).events) ∧
    (∀ e, (wait targets p seconds start).err = some e →
      ∃ k, Event.preCall k ∈ (wait targets p seconds start).events ∧
        Event.postCall k ∉ (wait targets p seconds start).events ∧
        ∀ m, Event.preCall m ∈ (wait targets p seconds start).events →
          Event.postCall m ∈ (wait targets p seconds start).events ∨ m = k) := by
  rw [wait]
  exact wait_loop_hooks targets p (start + seconds) (pollFuel p seconds) start 0

/-- Witness for the amended C4: in a failure-free one-poll wait the
`pre_command` of poll 0 is matched by a `post_command`. -/
theorem cfs_wait_hooks_amended_witness :
    Event.postCall 0 ∈ (wait [⟨fun _ => none, fun _ => none⟩] 1 1 0).events :=
  (cfs_wait_hooks_amended [⟨fun _ => none, fun _ => none⟩] 1 1 0).2.1
    (by rw [wait_noabort_char [⟨fun _ => none, fun _ => none⟩] 1 1 0 one_pos
      (fun m => rfl)])
    0
    (by
      rw [wait_noabort_char [⟨fun _ => none, fun _ => none⟩] 1 1 0 one_pos
        (fun m => rfl)]
      have h1 : pollFuel 1 1 = 1 := by norm_num [pollFuel]
      rw [h1]
      exact List.mem_flatten.mpr ⟨blockEvents [⟨fun _ => none, fun _ => none⟩] 0,
        by simp [List.range_succ],
        List.mem_append_left _ (preCall_mem_pre_command.mpr rfl)⟩)
